import Mathlib

/-!
Verification development for the claude-token-tracker ingestion and
aggregation pipeline.

The Python source is shallowly embedded:
- JSONL lines are parsed records (`Record`); a malformed line is `none`,
  an unreadable file is `none` at the file level (`JsonlFile`).
- The SQLite store is a pair of association lists keyed by primary key,
  in rowid (insertion) order; SQL `ON CONFLICT DO UPDATE` becomes
  `upsertKey`.
- SQLite BINARY text comparison (used by `MAX`, `MIN` and `>=` on the
  TEXT timestamp and model columns) is `strLe`, byte order on the
  codepoints of the strings, which for the UTF-8 strings involved
  coincides with byte order.
- Machine floats of the pricing path are idealised as rationals; the
  formulas are transcribed exactly.
- Token counts are natural numbers (the spec fixes them non-negative).
-/

namespace TokenTracker

/-! ### SQLite BINARY text order -/

/-- Byte order on char lists: compare codepoints position by position.
Models SQLite BINARY collation restricted to the ASCII strings the
tracker stores (timestamps, model ids), where codepoint order equals
byte order. -/
def clLe : List Char → List Char → Bool
  | [], _ => true
  | _ :: _, [] => false
  | a :: as, b :: bs =>
    if a.toNat = b.toNat then clLe as bs else decide (a.toNat < b.toNat)

/-- SQLite BINARY comparison of two TEXT values. -/
def strLe (a b : String) : Bool := clLe a.data b.data

/-- SQLite scalar and aggregate MAX over TEXT. -/
def strMax (a b : String) : String := if strLe a b then b else a

/-- SQLite aggregate MIN over TEXT. -/
def strMin (a b : String) : String := if strLe a b then a else b

/-- Python `s.startswith(pre)` on char lists: `charsStart pre l` holds when
`l` begins with `pre`. -/
def charsStart : List Char → List Char → Bool
  | [], _ => true
  | _ :: _, [] => false
  | a :: as, b :: bs => a == b && charsStart as bs

/-- Python `s.startswith(pre)`. -/
def startswith (s pre : String) : Bool := charsStart pre.data s.data

/-! ### Association lists standing for SQLite tables

A table is a list of (primary key, row) pairs in rowid order; keys are
unique in every state the program builds. -/

/-- Lookup of a row by primary key (first match). -/
def lookupKey {β : Type} : List (String × β) → String → Option β
  | [], _ => none
  | (k0, v) :: rest, k => if k0 = k then some v else lookupKey rest k

/-- SQL `INSERT ... ON CONFLICT DO UPDATE`: if the key is present the
existing row is rewritten in place by `upd`, otherwise the fresh row
`ins` is appended (new largest rowid). -/
def upsertKey {β : Type} : List (String × β) → String → β → (β → β) → List (String × β)
  | [], k, ins, _ => [(k, ins)]
  | (k0, v) :: rest, k, ins, upd =>
    if k0 = k then (k0, upd v) :: rest else (k0, v) :: upsertKey rest k ins upd

/-- The primary keys of a table. -/
def keysOf {β : Type} (l : List (String × β)) : List String := l.map Prod.fst

/-! ### Parser (src/tracker/parser.py) -/

/-- The `message.usage` block of an assistant record; a missing count
reads as 0 (`usage.get(k, 0)`). -/
structure Usage where
  input_tokens : Nat
  output_tokens : Nat
  cache_creation_input_tokens : Nat
  cache_read_input_tokens : Nat
deriving DecidableEq, Repr

/-- The `message` object of a record. -/
structure Msg where
  id : Option String
  model : Option String
  usage : Option Usage
deriving DecidableEq, Repr

/-- One successfully parsed JSONL object; each field is optional just as
the corresponding `obj.get(...)` may miss. -/
structure Record where
  rtype : Option String
  uuid : Option String
  sessionId : Option String
  timestamp : Option String
  cwd : Option String
  message : Option Msg
deriving DecidableEq, Repr

/-- One JSONL file: `none` is an unreadable file (OSError), a `none`
line is one that failed `json.loads`. -/
abbrev JsonlFile := Option (List (Option Record))

/-- Turn, exactly the dataclass of parser.py. -/
structure Turn where
  message_id : String
  outer_uuid : String
  session_id : String
  project_path : String
  timestamp : String
  model : String
  input_tokens : Nat
  output_tokens : Nat
  cache_creation_tokens : Nat
  cache_read_tokens : Nat
deriving DecidableEq, Repr

/-- Python `a or b` for an optional string: an absent or empty string
falls through to the fallback. -/
def pyOr (a : Option String) (b : String) : String :=
  match a with
  | some s => if s = "" then b else s
  | none => b

/-- The per-line body of the `iter_turns` loop after `json.loads`: skip
records that are not assistant-typed, have no usage block, or whose four
counts sum to zero; otherwise build the Turn. -/
def extractTurn (project_path : String) (rec : Record) : Option Turn :=
  if rec.rtype ≠ some "assistant" then none
  else
    match rec.message with
    | none => none
    | some msg =>
      match msg.usage with
      | none => none
      | some u =>
        if u.input_tokens + u.output_tokens + u.cache_creation_input_tokens
            + u.cache_read_input_tokens = 0 then none
        else
          some
            { message_id := pyOr msg.id (rec.uuid.getD "")
              outer_uuid := rec.uuid.getD ""
              session_id := rec.sessionId.getD ""
              project_path := project_path
              timestamp := rec.timestamp.getD ""
              model := msg.model.getD "unknown"
              input_tokens := u.input_tokens
              output_tokens := u.output_tokens
              cache_creation_tokens := u.cache_creation_input_tokens
              cache_read_tokens := u.cache_read_input_tokens }

/-- `best[message_id] = turn` guarded by
`existing is None or output_tok > existing.output_tokens`: replace the
entry in place when the new record has strictly more output tokens, else
keep the old one; a fresh key is appended preserving insertion order. -/
def updateBest (best : List (String × Turn)) (t : Turn) : List (String × Turn) :=
  match best with
  | [] => [(t.message_id, t)]
  | (k, v) :: rest =>
    if k = t.message_id then
      (if v.output_tokens < t.output_tokens then (k, t) else (k, v)) :: rest
    else (k, v) :: updateBest rest t

/-- One iteration of the `for raw in lines` loop of `iter_turns`. -/
def iterStep (project_path : String) (best : List (String × Turn))
    (line : Option Record) : List (String × Turn) :=
  match line with
  | none => best
  | some rec =>
    match extractTurn project_path rec with
    | none => best
    | some t => updateBest best t

/-- `iter_turns`: fold the loop over the lines and yield `best.values()`
(insertion order). An unreadable file yields nothing. -/
def iter_turns (file : JsonlFile) (project_path : String) : List Turn :=
  match file with
  | none => []
  | some lines => (lines.foldl (iterStep project_path) []).map Prod.snd

/-- The records that survive the skip tests of `iter_turns`, in file
order (the stream the dedup dictionary is fed with). -/
def survivors (lines : List (Option Record)) (project_path : String) : List Turn :=
  lines.filterMap (fun l => l.bind (extractTurn project_path))

/-- `_get_cwd_from_jsonl` over the parsed lines: the `cwd` of the first
user-typed record, defaulting to the empty string. -/
def cwdOfLines : List (Option Record) → String
  | [] => ""
  | none :: rest => cwdOfLines rest
  | some rec :: rest =>
    if rec.rtype = some "user" then rec.cwd.getD "" else cwdOfLines rest

/-- `_get_cwd_from_jsonl`: an unreadable file resolves to the empty
string. -/
def get_cwd_from_jsonl (file : JsonlFile) : String :=
  match file with
  | none => ""
  | some lines => cwdOfLines lines

/-- Bool test used to state that a file holds a user-typed record. -/
def lineIsUser (line : Option Record) : Bool :=
  match line with
  | some rec => rec.rtype == some "user"
  | none => false

/-- Bool test: the file holds at least one user-originated record (an
unreadable file holds none). -/
def hasUserRecordB (file : JsonlFile) : Bool :=
  match file with
  | none => false
  | some lines => lines.any lineIsUser

/-- The file holds at least one user-originated record. -/
def hasUserRecord (file : JsonlFile) : Prop := hasUserRecordB file = true

instance (file : JsonlFile) : Decidable (hasUserRecord file) :=
  inferInstanceAs (Decidable (hasUserRecordB file = true))

/-- `scan_session_turns`: single-file scan of the hook ingest path; the
project path comes from `_get_cwd_from_jsonl` alone, with no directory
name fallback. -/
def scan_session_turns (file : JsonlFile) : List Turn :=
  iter_turns file (get_cwd_from_jsonl file)

/-! ### Pricing (src/tracker/pricing.py) -/

/-- One rate tier in USD per million tokens; machine floats idealised as
rationals. -/
structure Prices where
  input : ℚ
  output : ℚ
  cache_write : ℚ
  cache_read : ℚ
deriving DecidableEq, Repr

/-- The PRICING dict, as a key-value list in its source (insertion)
order. -/
def PRICING : List (String × Prices) :=
  [ ("claude-sonnet-4-6",
      { input := 3.00, output := 15.00, cache_write := 3.75, cache_read := 0.30 }),
    ("claude-sonnet-4-5",
      { input := 3.00, output := 15.00, cache_write := 3.75, cache_read := 0.30 }),
    ("claude-opus-4-6",
      { input := 15.00, output := 75.00, cache_write := 18.75, cache_read := 1.50 }),
    ("claude-opus-4-5",
      { input := 15.00, output := 75.00, cache_write := 18.75, cache_read := 1.50 }),
    ("claude-haiku-4-5",
      { input := 0.80, output := 4.00, cache_write := 1.00, cache_read := 0.08 }),
    ("claude-haiku-4-5-20251001",
      { input := 0.80, output := 4.00, cache_write := 1.00, cache_read := 0.08 }),
    ("claude-3-5-sonnet-20241022",
      { input := 3.00, output := 15.00, cache_write := 3.75, cache_read := 0.30 }),
    ("claude-3-5-haiku-20241022",
      { input := 0.80, output := 4.00, cache_write := 1.00, cache_read := 0.08 }),
    ("claude-3-opus-20240229",
      { input := 15.00, output := 75.00, cache_write := 18.75, cache_read := 1.50 }) ]

/-- The `_DEFAULT` tier (Sonnet rates). -/
def DEFAULT_PRICING : Prices :=
  { input := 3.00, output := 15.00, cache_write := 3.75, cache_read := 0.30 }

/-- The loop condition `model.startswith(key) or key.startswith(model)`. -/
def prefixMatch (model key : String) : Bool :=
  startswith model key || startswith key model

/-- `get_pricing`: exact dict hit first, then the first table entry in
insertion order whose key is a prefix of the model or conversely, then
the default tier. -/
def get_pricing (model : String) : Prices :=
  match lookupKey PRICING model with
  | some p => p
  | none =>
    match PRICING.find? (fun kp => prefixMatch model kp.1) with
    | some kp => kp.2
    | none => DEFAULT_PRICING

/-- `calculate_cost`: USD cost of one turn. -/
def calculate_cost (model : String)
    (input_tokens output_tokens cache_creation_tokens cache_read_tokens : Nat) : ℚ :=
  let p := get_pricing model
  input_tokens * p.input / 1000000
    + output_tokens * p.output / 1000000
    + cache_creation_tokens * p.cache_write / 1000000
    + cache_read_tokens * p.cache_read / 1000000

/-- The cost computed for a Turn inside `upsert_turns_bulk`. -/
def costOf (t : Turn) : ℚ :=
  calculate_cost t.model t.input_tokens t.output_tokens
    t.cache_creation_tokens t.cache_read_tokens

/-! ### Store (src/tracker/db.py) -/

/-- One row of the sessions table (minus its primary key). -/
structure SessionRow where
  project_path : String
  first_seen : String
  last_seen : String
deriving DecidableEq, Repr

/-- One row of the turns table (minus its primary key). -/
structure TurnRow where
  session_id : String
  timestamp : String
  model : String
  input_tokens : Nat
  output_tokens : Nat
  cache_creation_tokens : Nat
  cache_read_tokens : Nat
  cost_usd : ℚ
deriving DecidableEq, Repr

/-- The whole database: both tables in rowid order. -/
structure DBState where
  sessions : List (String × SessionRow)
  turns : List (String × TurnRow)
deriving DecidableEq, Repr

/-- The freshly initialised database. -/
def emptyDB : DBState := { sessions := [], turns := [] }

/-- The per-turn body of `upsert_turns_bulk`: the session row is
inserted or its `last_seen` extended by TEXT MAX, then the turn row is
inserted or merged field-wise by MAX, leaving `input_tokens`,
`timestamp`, `model` and `session_id` at their first-inserted values. -/
def upsert_turn (st : DBState) (t : Turn) : DBState :=
  { sessions :=
      upsertKey st.sessions t.session_id
        { project_path := t.project_path
          first_seen := t.timestamp
          last_seen := t.timestamp }
        (fun r => { r with last_seen := strMax r.last_seen t.timestamp }),
    turns :=
      upsertKey st.turns t.message_id
        { session_id := t.session_id
          timestamp := t.timestamp
          model := t.model
          input_tokens := t.input_tokens
          output_tokens := t.output_tokens
          cache_creation_tokens := t.cache_creation_tokens
          cache_read_tokens := t.cache_read_tokens
          cost_usd := costOf t }
        (fun r =>
          { r with
            output_tokens := max r.output_tokens t.output_tokens
            cache_creation_tokens := max r.cache_creation_tokens t.cache_creation_tokens
            cache_read_tokens := max r.cache_read_tokens t.cache_read_tokens
            cost_usd := max r.cost_usd (costOf t) }) }

/-- `upsert_turns_bulk`: one transaction folding the per-turn upsert
over the batch. -/
def upsert_turns_bulk (st : DBState) (turns : List Turn) : DBState :=
  turns.foldl upsert_turn st

/-! ### Queries (src/tracker/db.py) -/

/-- Result row of `query_rolling_window`. -/
structure WindowAgg where
  sessions : Nat
  turns : Nat
  input_tokens : Nat
  output_tokens : Nat
  cache_creation_tokens : Nat
  cache_read_tokens : Nat
  cost_usd : ℚ
  oldest_turn : Option String
deriving DecidableEq, Repr

/-- SQL `MIN(timestamp)` over a set of turn rows (NULL on empty). -/
def minTimestamp : List TurnRow → Option String
  | [] => none
  | r :: rest => some ((rest.map (fun x => x.timestamp)).foldl strMin r.timestamp)

/-- `query_rolling_window`: aggregate over the turn rows whose TEXT
timestamp compares at or above the cutoff string; the cutoff is the
value SQLite computed for `datetime('now', '-N hours')`. -/
def query_rolling_window (st : DBState) (cutoff : String) : WindowAgg :=
  let rows := (st.turns.map Prod.snd).filter (fun r => strLe cutoff r.timestamp)
  { sessions := (rows.map (fun r => r.session_id)).dedup.length
    turns := rows.length
    input_tokens := (rows.map (fun r => r.input_tokens)).sum
    output_tokens := (rows.map (fun r => r.output_tokens)).sum
    cache_creation_tokens := (rows.map (fun r => r.cache_creation_tokens)).sum
    cache_read_tokens := (rows.map (fun r => r.cache_read_tokens)).sum
    cost_usd := (rows.map (fun r => r.cost_usd)).sum
    oldest_turn := minTimestamp rows }

/-- A wall-clock instant in UTC, for modelling the SQLite datetime
functions on the inputs the failing scenario needs. -/
structure UTCTime where
  year : Nat
  month : Nat
  day : Nat
  hour : Nat
  minute : Nat
  second : Nat
deriving DecidableEq, Repr

/-- Two-digit zero padding of a datetime field. -/
def pad2 (n : Nat) : String := if n < 10 then "0" ++ Nat.repr n else Nat.repr n

/-- Modelled from SQLite: `datetime(...)` renders an instant as
`YYYY-MM-DD HH:MM:SS` (space between date and time, no zone suffix). -/
def sqliteDatetimeString (t : UTCTime) : String :=
  Nat.repr t.year ++ "-" ++ pad2 t.month ++ "-" ++ pad2 t.day ++ " "
    ++ pad2 t.hour ++ ":" ++ pad2 t.minute ++ ":" ++ pad2 t.second

/-- Modelled from SQLite: the `-N hours` modifier, restricted to the
borrow-free case `h ≤ hour` where only the hour field moves. -/
def minusHours (t : UTCTime) (h : Nat) : UTCTime := { t with hour := t.hour - h }

/-- The ISO-8601 shape Claude Code writes into the JSONL `timestamp`
field for an instant: `YYYY-MM-DDTHH:MM:SS.000Z`. -/
def isoTimestampString (t : UTCTime) : String :=
  Nat.repr t.year ++ "-" ++ pad2 t.month ++ "-" ++ pad2 t.day ++ "T"
    ++ pad2 t.hour ++ ":" ++ pad2 t.minute ++ ":" ++ pad2 t.second ++ ".000Z"

/-- Result row of `query_sessions`. -/
structure SessionAggRow where
  session_id : String
  project_path : String
  first_seen : String
  last_seen : String
  turns : Nat
  input_tokens : Nat
  output_tokens : Nat
  cache_creation_tokens : Nat
  cache_read_tokens : Nat
  cost_usd : ℚ
  model : String
deriving DecidableEq, Repr

/-- SQL aggregate `MAX(t.model)` over a nonempty group of turn rows. -/
def maxModel (r : TurnRow) (rest : List TurnRow) : String :=
  (rest.map (fun x => x.model)).foldl strMax r.model

/-- One output row of `query_sessions`, for a session joined with its
nonempty group of turn rows. -/
def sessionRowAgg (sid : String) (s : SessionRow) (r : TurnRow)
    (rest : List TurnRow) : SessionAggRow :=
  { session_id := sid
    project_path := s.project_path
    first_seen := s.first_seen
    last_seen := s.last_seen
    turns := (r :: rest).length
    input_tokens := ((r :: rest).map (fun x => x.input_tokens)).sum
    output_tokens := ((r :: rest).map (fun x => x.output_tokens)).sum
    cache_creation_tokens := ((r :: rest).map (fun x => x.cache_creation_tokens)).sum
    cache_read_tokens := ((r :: rest).map (fun x => x.cache_read_tokens)).sum
    cost_usd := ((r :: rest).map (fun x => x.cost_usd)).sum
    model := maxModel r rest }

/-- `ORDER BY s.last_seen DESC` as a relation on output rows. -/
def sessOrder (a b : SessionAggRow) : Prop := strLe b.last_seen a.last_seen = true

instance : DecidableRel sessOrder := fun a b =>
  (inferInstance : Decidable (strLe b.last_seen a.last_seen = true))

/-- The unsorted `GROUP BY` output of `query_sessions`: one aggregate
row per session owning at least one turn row (inner join). -/
def sessionRowsUnsorted (st : DBState) : List SessionAggRow :=
  st.sessions.filterMap (fun kv =>
    match (st.turns.map Prod.snd).filter (fun r => r.session_id == kv.1) with
    | [] => none
    | r :: rest => some (sessionRowAgg kv.1 kv.2 r rest))

/-- `query_sessions`: group, order by `last_seen` descending, limit. -/
def query_sessions (st : DBState) (limit : Nat) : List SessionAggRow :=
  (List.insertionSort sessOrder (sessionRowsUnsorted st)).take limit

/-! ### Configuration (src/tracker/config.py) -/

/-- PLAN_LIMITS, in source order. -/
def PLAN_LIMITS : List (String × Nat) :=
  [("pro", 44000), ("max5", 88000), ("max20", 220000)]

/-- PLANS = list(PLAN_LIMITS.keys()). -/
def PLANS : List String := PLAN_LIMITS.map Prod.fst

/-- The persisted JSON config document as a key-value list (the only key
the program writes is "plan"). -/
abbrev ConfigDoc := List (String × String)

/-- Write one key of the config document. -/
def setKey (cfg : ConfigDoc) (k v : String) : ConfigDoc :=
  upsertKey cfg k v (fun _ => v)

/-- `set_plan`: an unknown plan raises ValueError before anything is
written (the error payload abstracts the Python message); a known plan
rewrites the "plan" key and saves. -/
def set_plan (cfg : ConfigDoc) (plan : String) : Except String ConfigDoc :=
  if (lookupKey PLAN_LIMITS plan).isSome then
    Except.ok (setKey cfg "plan" plan)
  else Except.error ("Unknown plan: " ++ plan)

/-- The document on disk after a `set_plan` call: unchanged when the
call raised. -/
def persistedAfterSetPlan (cfg : ConfigDoc) (plan : String) : ConfigDoc :=
  match set_plan cfg plan with
  | Except.ok d => d
  | Except.error _ => cfg

/-! ### Derived notions used by the proofs -/

/-- The replacement rule of the dedup dictionary, as a binary choice:
keep the incumbent unless the newcomer has strictly more output
tokens. -/
def pick (a b : Turn) : Turn := if a.output_tokens < b.output_tokens then b else a

/-- The dedup choice lifted to the optional dictionary entry. -/
def pickStep (o : Option Turn) (t : Turn) : Option Turn :=
  some (match o with | none => t | some a => pick a t)

/-- Effect of one session upsert on the looked-up session row. -/
def stepSession (base : Option SessionRow) (a : Turn) : Option SessionRow :=
  some (match base with
    | some r => { r with last_seen := strMax r.last_seen a.timestamp }
    | none =>
      { project_path := a.project_path
        first_seen := a.timestamp
        last_seen := a.timestamp })

/-- The session row predicted for a base row and a list of upserted
Turns of that session, in order: the first Turn fixes `project_path` and
`first_seen`, every timestamp feeds the running TEXT MAX of
`last_seen`. -/
def expectedSession : Option SessionRow → List Turn → Option SessionRow
  | some r, g =>
    some { r with last_seen := (g.map (fun t => t.timestamp)).foldl strMax r.last_seen }
  | none, [] => none
  | none, t :: rest =>
    some
      { project_path := t.project_path
        first_seen := t.timestamp
        last_seen := (rest.map (fun t => t.timestamp)).foldl strMax t.timestamp }

/-- The store already dominates the Turn: its session row is present
with `last_seen` at or above the Turn timestamp, and its turn row is
present with every merged field at or above the incoming value. A
dominated Turn makes its upsert a no-op. -/
def turnAbsorbed (st : DBState) (t : Turn) : Prop :=
  (∃ r, lookupKey st.sessions t.session_id = some r ∧
    strLe t.timestamp r.last_seen = true) ∧
  (∃ r, lookupKey st.turns t.message_id = some r ∧
    t.output_tokens ≤ r.output_tokens ∧
    t.cache_creation_tokens ≤ r.cache_creation_tokens ∧
    t.cache_read_tokens ≤ r.cache_read_tokens ∧
    costOf t ≤ r.cost_usd)

/-! ### Concrete scenarios used by witnesses and counterexamples -/

/-- Streamed partial assistant record: output count 5. -/
def recLowOutput : Record :=
  { rtype := some "assistant"
    uuid := some "uuid-a"
    sessionId := some "sess-1"
    timestamp := some "2025-03-01T10:00:00.000Z"
    cwd := none
    message := some
      { id := some "msg-1"
        model := some "claude-sonnet-4-5"
        usage := some
          { input_tokens := 7
            output_tokens := 5
            cache_creation_input_tokens := 0
            cache_read_input_tokens := 0 } } }

/-- Final assistant record for the same response: output count 40. -/
def recHighOutput : Record :=
  { rtype := some "assistant"
    uuid := some "uuid-b"
    sessionId := some "sess-1"
    timestamp := some "2025-03-01T10:00:05.000Z"
    cwd := none
    message := some
      { id := some "msg-1"
        model := some "claude-sonnet-4-5"
        usage := some
          { input_tokens := 7
            output_tokens := 40
            cache_creation_input_tokens := 0
            cache_read_input_tokens := 0 } } }

/-- A log whose two assistant records share one message id. -/
def dedupLines : List (Option Record) := [some recLowOutput, some recHighOutput]

/-- The Turn extraction builds from the higher-output record. -/
def dedupWinner : Turn :=
  { message_id := "msg-1"
    outer_uuid := "uuid-b"
    session_id := "sess-1"
    project_path := "/home/user/proj"
    timestamp := "2025-03-01T10:00:05.000Z"
    model := "claude-sonnet-4-5"
    input_tokens := 7
    output_tokens := 40
    cache_creation_tokens := 0
    cache_read_tokens := 0 }

/-- A stored turn row with output count 10. -/
def storedRow : TurnRow :=
  { session_id := "sess-1"
    timestamp := "2025-03-01T10:00:00.000Z"
    model := "claude-sonnet-4-5"
    input_tokens := 7
    output_tokens := 10
    cache_creation_tokens := 4
    cache_read_tokens := 9
    cost_usd := 0 }

/-- A store holding `storedRow` under message id msg-1. -/
def mergeDB : DBState :=
  { sessions :=
      [("sess-1",
        { project_path := "/p"
          first_seen := "2025-03-01T10:00:00.000Z"
          last_seen := "2025-03-01T10:00:00.000Z" })]
    turns := [("msg-1", storedRow)] }

/-- A stale redelivery of msg-1 with smaller counts (output 3). -/
def staleTurn : Turn :=
  { message_id := "msg-1"
    outer_uuid := "uuid-c"
    session_id := "sess-1"
    project_path := "/p"
    timestamp := "2025-03-01T09:59:00.000Z"
    model := "claude-sonnet-4-5"
    input_tokens := 7
    output_tokens := 3
    cache_creation_tokens := 1
    cache_read_tokens := 2 }

/-- First-upserted Turn of session sess-9, with the later timestamp. -/
def sessTurnA : Turn :=
  { message_id := "msg-a"
    outer_uuid := "uuid-1"
    session_id := "sess-9"
    project_path := "/p"
    timestamp := "2025-03-02T08:00:00.000Z"
    model := "claude-sonnet-4-5"
    input_tokens := 1
    output_tokens := 2
    cache_creation_tokens := 0
    cache_read_tokens := 0 }

/-- Second-upserted Turn of session sess-9, with the earlier timestamp. -/
def sessTurnB : Turn :=
  { message_id := "msg-b"
    outer_uuid := "uuid-2"
    session_id := "sess-9"
    project_path := "/p"
    timestamp := "2025-03-01T07:00:00.000Z"
    model := "claude-sonnet-4-5"
    input_tokens := 3
    output_tokens := 4
    cache_creation_tokens := 0
    cache_read_tokens := 0 }

/-- Query instant of the rolling-window scenario: 2025-01-07 12:00:00 UTC. -/
def nowTime : UTCTime :=
  { year := 2025, month := 1, day := 7, hour := 12, minute := 0, second := 0 }

/-- Instant six hours before `nowTime`. -/
def sixHourOldTime : UTCTime :=
  { year := 2025, month := 1, day := 7, hour := 6, minute := 0, second := 0 }

/-- A Turn recorded six hours before `nowTime`, timestamped the way the
log writer does. -/
def windowTurn : Turn :=
  { message_id := "msg-w"
    outer_uuid := "uuid-w"
    session_id := "sess-w"
    project_path := "/p"
    timestamp := isoTimestampString sixHourOldTime
    model := "claude-sonnet-4-5"
    input_tokens := 1
    output_tokens := 2
    cache_creation_tokens := 0
    cache_read_tokens := 0 }

/-- Store holding only `windowTurn`. -/
def windowDB : DBState := upsert_turns_bulk emptyDB [windowTurn]

/-- Older turn of sess-1 with the lexicographically larger model id. -/
def olderSonnetTurn : Turn :=
  { message_id := "msg-1"
    outer_uuid := "uuid-1"
    session_id := "sess-1"
    project_path := "/p"
    timestamp := "2025-03-01T10:00:00.000Z"
    model := "claude-sonnet-4-5"
    input_tokens := 1
    output_tokens := 2
    cache_creation_tokens := 0
    cache_read_tokens := 0 }

/-- Most recent turn of sess-1, run on the haiku model. -/
def newerHaikuTurn : Turn :=
  { message_id := "msg-2"
    outer_uuid := "uuid-2"
    session_id := "sess-1"
    project_path := "/p"
    timestamp := "2025-03-02T10:00:00.000Z"
    model := "claude-haiku-4-5"
    input_tokens := 3
    output_tokens := 4
    cache_creation_tokens := 0
    cache_read_tokens := 0 }

/-- Store holding both turns of sess-1. -/
def modelDB : DBState := upsert_turns_bulk emptyDB [olderSonnetTurn, newerHaikuTurn]

/-- A hook-ingested log holding one malformed line and one assistant
record, and no user record. -/
def hookFile : JsonlFile := some [none, some recHighOutput]

/-! ### Order lemmas for the BINARY text comparison -/

theorem clLe_refl (l : List Char) : clLe l l = true := by
  induction l with
  | nil => rfl
  | cons a as ih => simp [clLe, ih]

theorem clLe_trans : ∀ {a b c : List Char},
    clLe a b = true → clLe b c = true → clLe a c = true
  | [], _, _, _, _ => rfl
  | _ :: _, [], _, h1, _ => by simp [clLe] at h1
  | _ :: _, _ :: _, [], _, h2 => by simp [clLe] at h2
  | x :: xs, y :: ys, z :: zs, h1, h2 => by
    simp only [clLe] at h1 h2 ⊢
    by_cases hxy : x.toNat = y.toNat
    · by_cases hyz : y.toNat = z.toNat
      · rw [if_pos hxy] at h1
        rw [if_pos hyz] at h2
        rw [if_pos (hxy.trans hyz)]
        exact clLe_trans h1 h2
      · rw [if_pos hxy] at h1
        rw [if_neg hyz, decide_eq_true_iff] at h2
        have hxz : ¬ x.toNat = z.toNat := by omega
        rw [if_neg hxz, decide_eq_true_iff]
        omega
    · rw [if_neg hxy, decide_eq_true_iff] at h1
      by_cases hyz : y.toNat = z.toNat
      · have hxz : ¬ x.toNat = z.toNat := by omega
        rw [if_neg hxz, decide_eq_true_iff]
        omega
      · rw [if_neg hyz, decide_eq_true_iff] at h2
        have hxz : ¬ x.toNat = z.toNat := by omega
        rw [if_neg hxz, decide_eq_true_iff]
        omega

theorem clLe_total : ∀ (a b : List Char), clLe a b = true ∨ clLe b a = true
  | [], _ => Or.inl rfl
  | _ :: _, [] => Or.inr rfl
  | x :: xs, y :: ys => by
    simp only [clLe]
    by_cases hxy : x.toNat = y.toNat
    · rw [if_pos hxy, if_pos hxy.symm]
      exact clLe_total xs ys
    · have hyx : ¬ y.toNat = x.toNat := fun h => hxy h.symm
      rw [if_neg hxy, if_neg hyx, decide_eq_true_iff, decide_eq_true_iff]
      omega

theorem char_toNat_inj {a b : Char} (h : a.toNat = b.toNat) : a = b := by
  have h2 := congrArg Char.ofNat h
  rwa [Char.ofNat_toNat, Char.ofNat_toNat] at h2

theorem clLe_antisymm : ∀ {a b : List Char},
    clLe a b = true → clLe b a = true → a = b
  | [], [], _, _ => rfl
  | [], _ :: _, _, h2 => by simp [clLe] at h2
  | _ :: _, [], h1, _ => by simp [clLe] at h1
  | x :: xs, y :: ys, h1, h2 => by
    simp only [clLe] at h1 h2
    by_cases hxy : x.toNat = y.toNat
    · rw [if_pos hxy] at h1
      rw [if_pos (hxy.symm)] at h2
      rw [char_toNat_inj hxy, clLe_antisymm h1 h2]
    · have hyx : ¬ y.toNat = x.toNat := fun h => hxy h.symm
      rw [if_neg hxy, decide_eq_true_iff] at h1
      rw [if_neg hyx, decide_eq_true_iff] at h2
      omega

theorem str_data_inj {a b : String} (h : a.data = b.data) : a = b := by
  cases a
  cases b
  cases h
  rfl

theorem strLe_refl (a : String) : strLe a a = true := clLe_refl a.data

theorem strLe_trans {a b c : String} (h1 : strLe a b = true)
    (h2 : strLe b c = true) : strLe a c = true := clLe_trans h1 h2

theorem strLe_total (a b : String) : strLe a b = true ∨ strLe b a = true :=
  clLe_total a.data b.data

theorem strLe_antisymm {a b : String} (h1 : strLe a b = true)
    (h2 : strLe b a = true) : a = b := str_data_inj (clLe_antisymm h1 h2)

theorem strLe_strMax_left (a b : String) : strLe a (strMax a b) = true := by
  unfold strMax
  by_cases h : strLe a b = true
  · rw [if_pos h]
    exact h
  · rw [if_neg h]
    exact strLe_refl a

theorem strLe_strMax_right (a b : String) : strLe b (strMax a b) = true := by
  unfold strMax
  by_cases h : strLe a b = true
  · rw [if_pos h]
    exact strLe_refl b
  · rw [if_neg h]
    cases strLe_total a b with
    | inl h1 => exact absurd h1 h
    | inr h2 => exact h2

theorem strMax_eq_left {a b : String} (h : strLe b a = true) : strMax a b = a := by
  unfold strMax
  by_cases h2 : strLe a b = true
  · rw [if_pos h2]
    exact strLe_antisymm h h2
  · rw [if_neg h2]

theorem strLe_foldl_strMax_init (l : List String) (a : String) :
    strLe a (l.foldl strMax a) = true := by
  induction l generalizing a with
  | nil => exact strLe_refl a
  | cons b bs ih =>
    exact strLe_trans (strLe_strMax_left a b) (ih (strMax a b))

theorem strLe_foldl_strMax_mem {l : List String} {b : String} (h : b ∈ l)
    (a : String) : strLe b (l.foldl strMax a) = true := by
  induction l generalizing a with
  | nil => cases h
  | cons c cs ih =>
    rw [List.mem_cons] at h
    rcases h with h | h
    · subst h
      exact strLe_trans (strLe_strMax_right a b) (strLe_foldl_strMax_init cs (strMax a b))
    · exact ih h (strMax a c)

theorem foldl_strMax_mem (l : List String) (a : String) :
    l.foldl strMax a ∈ a :: l := by
  induction l generalizing a with
  | nil => exact List.mem_singleton.mpr rfl
  | cons b bs ih =>
    have h := ih (strMax a b)
    rw [List.mem_cons] at h
    have hm : strMax a b = b ∨ strMax a b = a := by
      unfold strMax
      by_cases hc : strLe a b = true
      · rw [if_pos hc]
        exact Or.inl rfl
      · rw [if_neg hc]
        exact Or.inr rfl
    rcases h with h | h
    · rcases hm with hm | hm
      · rw [List.foldl_cons, h, hm]
        exact List.mem_cons_of_mem _ (List.mem_cons_self _ _)
      · rw [List.foldl_cons, h, hm]
        exact List.mem_cons_self _ _
    · exact List.mem_cons_of_mem _ (List.mem_cons_of_mem _ h)

/-! ### Association list lemmas -/

theorem lookupKey_upsertKey_self {β : Type} (l : List (String × β))
    (k : String) (ins : β) (upd : β → β) :
    lookupKey (upsertKey l k ins upd) k =
      some (match lookupKey l k with | some v => upd v | none => ins) := by
  induction l with
  | nil => simp [upsertKey, lookupKey]
  | cons p rest ih =>
    obtain ⟨k0, v⟩ := p
    by_cases h : k0 = k
    · simp [upsertKey, lookupKey, h]
    · simp only [upsertKey, lookupKey, if_neg h]
      exact ih

theorem lookupKey_upsertKey_ne {β : Type} (l : List (String × β))
    (k : String) (ins : β) (upd : β → β) {k2 : String} (h : k2 ≠ k) :
    lookupKey (upsertKey l k ins upd) k2 = lookupKey l k2 := by
  induction l with
  | nil =>
    have hn : ¬ k = k2 := fun he => h he.symm
    simp [upsertKey, lookupKey, hn]
  | cons p rest ih =>
    obtain ⟨k0, v⟩ := p
    by_cases hk : k0 = k
    · subst hk
      have hn : ¬ k0 = k2 := fun he => h he.symm
      simp [upsertKey, lookupKey, hn]
    · simp only [upsertKey, if_neg hk]
      by_cases hk2 : k0 = k2
      · simp [lookupKey, hk2]
      · simp only [lookupKey, if_neg hk2]
        exact ih

theorem upsertKey_eq_self {β : Type} {l : List (String × β)} {k : String}
    {v : β} (hl : lookupKey l k = some v) (ins : β) {upd : β → β}
    (hv : upd v = v) : upsertKey l k ins upd = l := by
  induction l with
  | nil => simp [lookupKey] at hl
  | cons p rest ih =>
    obtain ⟨k0, w⟩ := p
    by_cases h : k0 = k
    · simp only [lookupKey, if_pos h] at hl
      cases hl
      simp [upsertKey, if_pos h, hv]
    · simp only [lookupKey, if_neg h] at hl
      simp [upsertKey, if_neg h, ih hl]

theorem lookupKey_eq_of_mem {β : Type} {l : List (String × β)}
    (hnd : (keysOf l).Nodup) {k : String} {v : β} (h : (k, v) ∈ l) :
    lookupKey l k = some v := by
  induction l with
  | nil => cases h
  | cons p rest ih =>
    obtain ⟨k0, w⟩ := p
    rw [keysOf, List.map_cons, List.nodup_cons] at hnd
    cases h with
    | head => simp [lookupKey]
    | tail _ hmem =>
      have hk : k ∈ keysOf rest := List.mem_map_of_mem Prod.fst hmem
      have hne : ¬ k0 = k := fun he => hnd.1 (he ▸ hk)
      simp only [lookupKey, if_neg hne]
      exact ih hnd.2 hmem

theorem lookupKey_eq_none_iff {β : Type} (l : List (String × β)) (k : String) :
    lookupKey l k = none ↔ k ∉ keysOf l := by
  induction l with
  | nil => simp [lookupKey, keysOf]
  | cons p rest ih =>
    obtain ⟨k0, v⟩ := p
    by_cases h : k0 = k
    · subst h
      simp [lookupKey, keysOf]
    · simp only [lookupKey, if_neg h, keysOf, List.map_cons, List.mem_cons]
      rw [ih]
      constructor
      · rintro hn (he | hm)
        · exact h he.symm
        · exact hn hm
      · intro hn hm
        exact hn (Or.inr hm)

theorem lookupKey_isSome_iff {β : Type} (l : List (String × β)) (k : String) :
    (lookupKey l k).isSome = true ↔ k ∈ keysOf l := by
  induction l with
  | nil => simp [lookupKey, keysOf]
  | cons p rest ih =>
    obtain ⟨k0, v⟩ := p
    by_cases h : k0 = k
    · subst h
      simp [lookupKey, keysOf]
    · rw [keysOf, List.map_cons, List.mem_cons]
      simp only [lookupKey, if_neg h, ih, keysOf]
      constructor
      · exact fun hm => Or.inr hm
      · rintro (he | hm)
        · exact absurd he.symm h
        · exact hm

/-! ### Upsert merge lemmas -/

theorem upsert_turn_absorbed_eq {st : DBState} {t : Turn}
    (h : turnAbsorbed st t) : upsert_turn st t = st := by
  obtain ⟨⟨rs, hrs, hs⟩, ⟨rt, hrt, ho, hcc, hcr, hcost⟩⟩ := h
  have h1 : upsertKey st.sessions t.session_id
      { project_path := t.project_path
        first_seen := t.timestamp
        last_seen := t.timestamp }
      (fun r => { r with last_seen := strMax r.last_seen t.timestamp })
      = st.sessions := by
    refine upsertKey_eq_self hrs _ ?_
    rw [strMax_eq_left hs]
  have h2 : upsertKey st.turns t.message_id
      { session_id := t.session_id
        timestamp := t.timestamp
        model := t.model
        input_tokens := t.input_tokens
        output_tokens := t.output_tokens
        cache_creation_tokens := t.cache_creation_tokens
        cache_read_tokens := t.cache_read_tokens
        cost_usd := costOf t }
      (fun r =>
        { r with
          output_tokens := max r.output_tokens t.output_tokens
          cache_creation_tokens := max r.cache_creation_tokens t.cache_creation_tokens
          cache_read_tokens := max r.cache_read_tokens t.cache_read_tokens
          cost_usd := max r.cost_usd (costOf t) })
      = st.turns := by
    refine upsertKey_eq_self hrt _ ?_
    rw [max_eq_left ho, max_eq_left hcc, max_eq_left hcr, max_eq_left hcost]
  show DBState.mk _ _ = st
  rw [h1, h2]

theorem upsert_turn_absorbed_mono {st : DBState} {t u : Turn}
    (h : turnAbsorbed st u) : turnAbsorbed (upsert_turn st t) u := by
  obtain ⟨⟨rs, hrs, hs⟩, ⟨rt, hrt, ho, hcc, hcr, hcost⟩⟩ := h
  constructor
  · by_cases hk : u.session_id = t.session_id
    · simp only [upsert_turn]
      rw [hk, lookupKey_upsertKey_self]
      rw [hk] at hrs
      rw [hrs]
      exact ⟨_, rfl, strLe_trans hs (strLe_strMax_left _ _)⟩
    · refine ⟨rs, ?_, hs⟩
      simp only [upsert_turn]
      rw [lookupKey_upsertKey_ne _ _ _ _ hk]
      exact hrs
  · by_cases hk : u.message_id = t.message_id
    · simp only [upsert_turn]
      rw [hk, lookupKey_upsertKey_self]
      rw [hk] at hrt
      rw [hrt]
      exact ⟨_, rfl, le_trans ho (le_max_left _ _), le_trans hcc (le_max_left _ _),
        le_trans hcr (le_max_left _ _), le_trans hcost (le_max_left _ _)⟩
    · refine ⟨rt, ?_, ho, hcc, hcr, hcost⟩
      simp only [upsert_turn]
      rw [lookupKey_upsertKey_ne _ _ _ _ hk]
      exact hrt

theorem upsert_turn_absorbs_self (st : DBState) (t : Turn) :
    turnAbsorbed (upsert_turn st t) t := by
  constructor
  · simp only [upsert_turn]
    rw [lookupKey_upsertKey_self]
    cases lookupKey st.sessions t.session_id with
    | none => exact ⟨_, rfl, strLe_refl _⟩
    | some r => exact ⟨_, rfl, strLe_strMax_right _ _⟩
  · simp only [upsert_turn]
    rw [lookupKey_upsertKey_self]
    cases lookupKey st.turns t.message_id with
    | none => exact ⟨_, rfl, le_refl _, le_refl _, le_refl _, le_refl _⟩
    | some r =>
      exact ⟨_, rfl, le_max_right _ _, le_max_right _ _, le_max_right _ _,
        le_max_right _ _⟩

theorem bulk_absorbed_mono {st : DBState} {u : Turn} (L : List Turn)
    (h : turnAbsorbed st u) : turnAbsorbed (upsert_turns_bulk st L) u := by
  induction L generalizing st with
  | nil => exact h
  | cons a l ih => exact ih (upsert_turn_absorbed_mono h)

theorem bulk_absorbs_all (st : DBState) (L : List Turn) :
    ∀ u ∈ L, turnAbsorbed (upsert_turns_bulk st L) u := by
  induction L generalizing st with
  | nil => intro u hu; cases hu
  | cons a l ih =>
    intro u hu
    rw [List.mem_cons] at hu
    rcases hu with rfl | hu
    · exact bulk_absorbed_mono l (upsert_turn_absorbs_self st u)
    · exact ih (upsert_turn st a) u hu

theorem bulk_noop (L : List Turn) :
    ∀ {st : DBState}, (∀ u ∈ L, turnAbsorbed st u) → upsert_turns_bulk st L = st := by
  induction L with
  | nil => intro st _; rfl
  | cons a l ih =>
    intro st h
    have ha := upsert_turn_absorbed_eq (h a (List.mem_cons_self a l))
    show List.foldl upsert_turn (upsert_turn st a) l = st
    rw [ha]
    exact ih (fun u hu => h u (List.mem_cons_of_mem a hu))

/-! ### Session row characterization -/

theorem expectedSession_nil (base : Option SessionRow) :
    expectedSession base [] = base := by
  cases base with
  | none => rfl
  | some r => rfl

theorem expectedSession_cons (base : Option SessionRow) (a : Turn) (g : List Turn) :
    expectedSession base (a :: g) = expectedSession (stepSession base a) g := by
  cases base with
  | some r => simp [expectedSession, stepSession, List.map_cons, List.foldl_cons]
  | none => simp [expectedSession, stepSession, List.map_cons, List.foldl_cons]

theorem lookup_sessions_upsert_turn (st : DBState) (a : Turn) :
    lookupKey (upsert_turn st a).sessions a.session_id =
      stepSession (lookupKey st.sessions a.session_id) a := by
  simp only [upsert_turn]
  rw [lookupKey_upsertKey_self]
  cases lookupKey st.sessions a.session_id with
  | none => rfl
  | some r => rfl

theorem lookup_sessions_bulk (L : List Turn) :
    ∀ (st : DBState) (sid : String),
      lookupKey (upsert_turns_bulk st L).sessions sid =
        expectedSession (lookupKey st.sessions sid)
          (L.filter (fun t => t.session_id == sid)) := by
  induction L with
  | nil =>
    intro st sid
    rw [List.filter_nil, expectedSession_nil]
    rfl
  | cons a l ih =>
    intro st sid
    have hbulk : upsert_turns_bulk st (a :: l) = upsert_turns_bulk (upsert_turn st a) l := rfl
    rw [hbulk, ih]
    by_cases ha : a.session_id = sid
    · rw [List.filter_cons_of_pos (by simp [ha]), expectedSession_cons]
      subst ha
      rw [lookup_sessions_upsert_turn]
    · rw [List.filter_cons_of_neg (by simp [ha])]
      have hne : sid ≠ a.session_id := fun he => ha he.symm
      have : lookupKey (upsert_turn st a).sessions sid = lookupKey st.sessions sid := by
        simp only [upsert_turn]
        exact lookupKey_upsertKey_ne _ _ _ _ hne
      rw [this]

/-! ### Dedup dictionary lemmas -/

theorem foldl_iterStep_eq_survivors (lines : List (Option Record)) (pp : String) :
    ∀ acc, lines.foldl (iterStep pp) acc = (survivors lines pp).foldl updateBest acc := by
  induction lines with
  | nil => intro acc; rfl
  | cons line ls ih =>
    intro acc
    cases line with
    | none =>
      have h2 : survivors (none :: ls) pp = survivors ls pp := by
        simp [survivors, List.filterMap_cons]
      rw [List.foldl_cons, h2]
      exact ih acc
    | some rec =>
      rw [List.foldl_cons]
      cases hext : extractTurn pp rec with
      | none =>
        have h1 : iterStep pp acc (some rec) = acc := by
          simp [iterStep, hext]
        have h2 : survivors (some rec :: ls) pp = survivors ls pp := by
          simp [survivors, List.filterMap_cons, hext]
        rw [h1, h2]
        exact ih acc
      | some t =>
        have h1 : iterStep pp acc (some rec) = updateBest acc t := by
          simp [iterStep, hext]
        have h2 : survivors (some rec :: ls) pp = t :: survivors ls pp := by
          simp [survivors, List.filterMap_cons, hext]
        rw [h1, h2, List.foldl_cons]
        exact ih (updateBest acc t)

theorem lookupKey_updateBest (best : List (String × Turn)) (t : Turn) (k : String) :
    lookupKey (updateBest best t) k =
      if t.message_id = k then pickStep (lookupKey best k) t else lookupKey best k := by
  induction best with
  | nil =>
    by_cases h : t.message_id = k
    · simp [updateBest, lookupKey, h, pickStep]
    · simp [updateBest, lookupKey, h]
  | cons p rest ih =>
    obtain ⟨k0, v⟩ := p
    by_cases hk0 : k0 = t.message_id
    · have hub : updateBest ((k0, v) :: rest) t =
          (if v.output_tokens < t.output_tokens then (k0, t) else (k0, v)) :: rest := by
        simp [updateBest, hk0]
      rw [hub]
      by_cases hk : k0 = k
      · have hmk : t.message_id = k := hk0 ▸ hk
        rw [if_pos hmk]
        by_cases hlt : v.output_tokens < t.output_tokens
        · rw [if_pos hlt]
          simp [lookupKey, hk, pickStep, pick, hlt]
        · rw [if_neg hlt]
          simp [lookupKey, hk, pickStep, pick, hlt]
      · have hmk : ¬ t.message_id = k := fun he => hk (hk0.trans he)
        rw [if_neg hmk]
        by_cases hlt : v.output_tokens < t.output_tokens
        · rw [if_pos hlt]
          simp [lookupKey, hk]
        · rw [if_neg hlt]
    · have hub : updateBest ((k0, v) :: rest) t = (k0, v) :: updateBest rest t := by
        simp [updateBest, hk0]
      rw [hub]
      by_cases hk : k0 = k
      · have hmk : ¬ t.message_id = k := fun he => hk0 (hk.trans he.symm)
        rw [if_neg hmk]
        simp [lookupKey, hk]
      · simp only [lookupKey, if_neg hk]
        exact ih

theorem lookupKey_foldl_updateBest (ts : List Turn) :
    ∀ (acc : List (String × Turn)) (k : String),
      lookupKey (ts.foldl updateBest acc) k =
        (ts.filter (fun t => t.message_id == k)).foldl pickStep (lookupKey acc k) := by
  induction ts with
  | nil => intro acc k; rfl
  | cons a l ih =>
    intro acc k
    rw [List.foldl_cons]
    by_cases ha : a.message_id = k
    · rw [List.filter_cons_of_pos (by simp [ha]), List.foldl_cons, ih,
        lookupKey_updateBest, if_pos ha]
    · rw [List.filter_cons_of_neg (by simp [ha]), ih, lookupKey_updateBest, if_neg ha]

theorem updateBest_keyed {acc : List (String × Turn)}
    (hk : ∀ p ∈ acc, (p.2).message_id = p.1) (t : Turn) :
    ∀ p ∈ updateBest acc t, (p.2).message_id = p.1 := by
  induction acc with
  | nil =>
    intro p hp
    rw [show updateBest [] t = [(t.message_id, t)] from rfl, List.mem_singleton] at hp
    subst hp
    rfl
  | cons q rest ih =>
    obtain ⟨k0, v⟩ := q
    intro p hp
    by_cases hk0 : k0 = t.message_id
    · rw [show updateBest ((k0, v) :: rest) t =
          (if v.output_tokens < t.output_tokens then (k0, t) else (k0, v)) :: rest from by
            simp [updateBest, hk0], List.mem_cons] at hp
      rcases hp with hp | hp
      · subst hp
        by_cases hlt : v.output_tokens < t.output_tokens
        · simp [hlt, hk0.symm]
        · simpa [hlt] using hk (k0, v) (List.mem_cons_self _ _)
      · exact hk p (List.mem_cons_of_mem _ hp)
    · rw [show updateBest ((k0, v) :: rest) t = (k0, v) :: updateBest rest t from by
          simp [updateBest, hk0], List.mem_cons] at hp
      rcases hp with hp | hp
      · subst hp
        exact hk (k0, v) (List.mem_cons_self _ _)
      · exact ih (fun q hq => hk q (List.mem_cons_of_mem _ hq)) p hp

theorem keysOf_updateBest (acc : List (String × Turn)) (t : Turn) :
    keysOf (updateBest acc t) = keysOf acc ∨
      (keysOf (updateBest acc t) = keysOf acc ++ [t.message_id] ∧
        t.message_id ∉ keysOf acc) := by
  induction acc with
  | nil =>
    right
    exact ⟨rfl, by simp [keysOf]⟩
  | cons q rest ih =>
    obtain ⟨k0, v⟩ := q
    by_cases hk0 : k0 = t.message_id
    · left
      rw [show updateBest ((k0, v) :: rest) t =
          (if v.output_tokens < t.output_tokens then (k0, t) else (k0, v)) :: rest from by
            simp [updateBest, hk0]]
      by_cases hlt : v.output_tokens < t.output_tokens
      · simp [hlt, keysOf]
      · simp [hlt, keysOf]
    · rw [show updateBest ((k0, v) :: rest) t = (k0, v) :: updateBest rest t from by
        simp [updateBest, hk0]]
      rcases ih with ih | ⟨ih1, ih2⟩
      · left
        simp [keysOf, List.map_cons] at ih ⊢
        exact ih
      · right
        constructor
        · simp only [keysOf, List.map_cons] at ih1 ⊢
          rw [ih1]
          rfl
        · rw [keysOf, List.map_cons, List.mem_cons]
          rintro (he | hm)
          · exact hk0 he.symm
          · exact ih2 hm

theorem nodup_keys_updateBest {acc : List (String × Turn)}
    (hnd : (keysOf acc).Nodup) (t : Turn) : (keysOf (updateBest acc t)).Nodup := by
  rcases keysOf_updateBest acc t with h | ⟨h1, h2⟩
  · rw [h]
    exact hnd
  · rw [h1, List.nodup_append]
    refine ⟨hnd, List.nodup_singleton _, ?_⟩
    intro a ha hb
    rw [List.mem_singleton] at hb
    subst hb
    exact h2 ha

theorem values_filter_eq_lookup :
    ∀ (acc : List (String × Turn)),
      (∀ p ∈ acc, (p.2).message_id = p.1) → (keysOf acc).Nodup →
      ∀ k, (acc.map Prod.snd).filter (fun v => v.message_id == k) =
        (lookupKey acc k).toList := by
  intro acc
  induction acc with
  | nil => intro _ _ k; rfl
  | cons q rest ih =>
    obtain ⟨k0, v⟩ := q
    intro hk hnd k
    have hv : v.message_id = k0 := hk (k0, v) (List.mem_cons_self _ _)
    rw [keysOf, List.map_cons, List.nodup_cons] at hnd
    by_cases h : k0 = k
    · subst h
      rw [List.map_cons, List.filter_cons_of_pos (by simp [hv])]
      have hrest : (rest.map Prod.snd).filter (fun v => v.message_id == k0) = [] := by
        rw [List.filter_eq_nil_iff]
        intro v2 hv2
        obtain ⟨q, hq, hq2⟩ := List.mem_map.mp hv2
        subst hq2
        have hqk := hk q (List.mem_cons_of_mem _ hq)
        simp only [beq_iff_eq, hqk]
        intro he
        have h1 : q.1 ∈ List.map Prod.fst rest := List.mem_map_of_mem Prod.fst hq
        rw [he] at h1
        exact hnd.1 h1
      rw [hrest]
      simp [lookupKey]
    · rw [List.map_cons, List.filter_cons_of_neg (by simp [hv, h])]
      rw [show lookupKey ((k0, v) :: rest) k = lookupKey rest k from by simp [lookupKey, h]]
      exact ih (fun q hq => hk q (List.mem_cons_of_mem _ hq)) hnd.2 k

theorem foldl_updateBest_keyed (ts : List Turn) :
    ∀ acc, (∀ p ∈ acc, (p.2).message_id = p.1) →
      ∀ p ∈ ts.foldl updateBest acc, (p.2).message_id = p.1 := by
  induction ts with
  | nil => intro acc h; exact h
  | cons a l ih =>
    intro acc h
    rw [List.foldl_cons]
    exact ih (updateBest acc a) (updateBest_keyed h a)

theorem foldl_updateBest_nodup (ts : List Turn) :
    ∀ acc, (keysOf acc).Nodup → (keysOf (ts.foldl updateBest acc)).Nodup := by
  induction ts with
  | nil => intro acc h; exact h
  | cons a l ih =>
    intro acc h
    rw [List.foldl_cons]
    exact ih (updateBest acc a) (nodup_keys_updateBest h a)

theorem foldl_pickStep_some (g : List Turn) :
    ∀ a : Turn, g.foldl pickStep (some a) = some (g.foldl pick a) := by
  induction g with
  | nil => intro a; rfl
  | cons b l ih => intro a; exact ih (pick a b)

theorem foldl_pick_unique_max (g : List Turn) (m : Turn) :
    ∀ a : Turn, (a = m ∨ (m ∈ g ∧ a.output_tokens < m.output_tokens)) →
      (∀ u ∈ g, u ≠ m → u.output_tokens < m.output_tokens) →
      g.foldl pick a = m := by
  induction g with
  | nil =>
    rintro a (rfl | ⟨hm, _⟩) _
    · rfl
    · cases hm
  | cons b l ih =>
    intro a ha hall
    rw [List.foldl_cons]
    refine ih (pick a b) ?_ (fun u hu => hall u (List.mem_cons_of_mem _ hu))
    by_cases hb : b = m
    · subst hb
      left
      rcases ha with rfl | ⟨_, hlt⟩
      · unfold pick
        simp [lt_irrefl]
      · unfold pick
        rw [if_pos hlt]
    · have hblt : b.output_tokens < m.output_tokens :=
        hall b (List.mem_cons_self _ _) hb
      rcases ha with rfl | ⟨hm, hlt⟩
      · left
        unfold pick
        rw [if_neg (by omega)]
      · have hml : m ∈ l := by
          rw [List.mem_cons] at hm
          rcases hm with rfl | hm
          · exact absurd rfl hb
          · exact hm
        right
        refine ⟨hml, ?_⟩
        unfold pick
        by_cases hc : a.output_tokens < b.output_tokens
        · rw [if_pos hc]
          exact hblt
        · rw [if_neg hc]
          exact hlt

/-! ### Project path propagation -/

theorem extractTurn_pp {pp : String} {rec : Record} {t : Turn}
    (h : extractTurn pp rec = some t) : t.project_path = pp := by
  unfold extractTurn at h
  split at h
  · cases h
  · split at h
    · cases h
    · split at h
      · cases h
      · split at h
        · cases h
        · cases h
          rfl

theorem updateBest_pp {pp : String} {best : List (String × Turn)}
    (hb : ∀ p ∈ best, (p.2).project_path = pp) {t : Turn}
    (ht : t.project_path = pp) :
    ∀ p ∈ updateBest best t, (p.2).project_path = pp := by
  induction best with
  | nil =>
    intro p hp
    rw [show updateBest [] t = [(t.message_id, t)] from rfl, List.mem_singleton] at hp
    subst hp
    exact ht
  | cons q rest ih =>
    obtain ⟨k0, v⟩ := q
    intro p hp
    by_cases hk0 : k0 = t.message_id
    · rw [show updateBest ((k0, v) :: rest) t =
          (if v.output_tokens < t.output_tokens then (k0, t) else (k0, v)) :: rest from by
            simp [updateBest, hk0], List.mem_cons] at hp
      rcases hp with hp | hp
      · subst hp
        by_cases hlt : v.output_tokens < t.output_tokens
        · simpa [hlt] using ht
        · simpa [hlt] using hb (k0, v) (List.mem_cons_self _ _)
      · exact hb p (List.mem_cons_of_mem _ hp)
    · rw [show updateBest ((k0, v) :: rest) t = (k0, v) :: updateBest rest t from by
          simp [updateBest, hk0], List.mem_cons] at hp
      rcases hp with hp | hp
      · subst hp
        exact hb (k0, v) (List.mem_cons_self _ _)
      · exact ih (fun q hq => hb q (List.mem_cons_of_mem _ hq)) p hp

theorem foldl_iterStep_pp (lines : List (Option Record)) (pp : String) :
    ∀ acc, (∀ p ∈ acc, (p.2).project_path = pp) →
      ∀ p ∈ lines.foldl (iterStep pp) acc, (p.2).project_path = pp := by
  induction lines with
  | nil => intro acc h; exact h
  | cons line ls ih =>
    intro acc h
    rw [List.foldl_cons]
    refine ih (iterStep pp acc line) ?_
    cases line with
    | none => exact h
    | some rec =>
      cases hext : extractTurn pp rec with
      | none => simpa [iterStep, hext] using h
      | some t =>
        have := updateBest_pp h (extractTurn_pp hext)
        simpa [iterStep, hext] using this

theorem iter_turns_project_path {file : JsonlFile} {pp : String} :
    ∀ t ∈ iter_turns file pp, t.project_path = pp := by
  cases file with
  | none => intro t ht; cases ht
  | some lines =>
    intro t ht
    simp only [iter_turns] at ht
    obtain ⟨p, hp, hpt⟩ := List.mem_map.mp ht
    subst hpt
    exact foldl_iterStep_pp lines pp [] (by intro p hp; cases hp) p hp

theorem cwdOfLines_no_user {lines : List (Option Record)}
    (h : lines.any lineIsUser = false) : cwdOfLines lines = "" := by
  induction lines with
  | nil => rfl
  | cons line rest ih =>
    rw [List.any_cons, Bool.or_eq_false_iff] at h
    cases line with
    | none => exact ih h.2
    | some rec =>
      have : ¬ rec.rtype = some "user" := by
        have h1 := h.1
        simp only [lineIsUser, beq_iff_eq] at h1
        intro he
        rw [he] at h1
        simp at h1
      rw [show cwdOfLines (some rec :: rest) = cwdOfLines rest from by
        simp [cwdOfLines, this]]
      exact ih h.2

/-! ### Session listing lemmas -/

theorem sessionRows_sids_sublist (turns : List (String × TurnRow)) :
    ∀ l : List (String × SessionRow),
      List.Sublist
        ((l.filterMap (fun kv =>
          match (turns.map Prod.snd).filter (fun r => r.session_id == kv.1) with
          | [] => none
          | r :: rest => some (sessionRowAgg kv.1 kv.2 r rest))).map
            (fun r => r.session_id))
        (l.map Prod.fst) := by
  intro l
  induction l with
  | nil => exact List.Sublist.refl _
  | cons kv rest ih =>
    rw [List.filterMap_cons]
    cases hflt : (turns.map Prod.snd).filter (fun r => r.session_id == kv.1) with
    | nil =>
      simp only [hflt, List.map_cons]
      exact ih.cons _
    | cons r rest2 =>
      simp only [hflt, List.map_cons]
      exact ih.cons₂ _

theorem foldl_bulk_eq_join (Ls : List (List Turn)) :
    ∀ st : DBState, Ls.foldl upsert_turns_bulk st = upsert_turns_bulk st Ls.flatten := by
  induction Ls with
  | nil => intro st; rfl
  | cons L ls ih =>
    intro st
    rw [List.foldl_cons, ih, List.flatten_cons]
    unfold upsert_turns_bulk
    rw [List.foldl_append]

/-! ### Claims -/

/-- C1: among the surviving assistant records of a log file that share
one message id (with the uuid fallback folded into `message_id` by
extraction), extraction yields exactly one Turn, and when one record of
the group has strictly the highest output-token count, the yielded Turn
is that record entire — every field comes from it. -/
theorem iter_turns_dedup (lines : List (Option Record)) (pp : String) (m : Turn)
    (hm : m ∈ survivors lines pp)
    (hmax : ∀ u ∈ survivors lines pp,
      u.message_id = m.message_id → u ≠ m → u.output_tokens < m.output_tokens) :
    (iter_turns (some lines) pp).filter (fun v => v.message_id == m.message_id) = [m] := by
  have hiter : iter_turns (some lines) pp =
      ((survivors lines pp).foldl updateBest []).map Prod.snd := by
    simp only [iter_turns]
    rw [foldl_iterStep_eq_survivors]
  rw [hiter]
  have hkeyed := foldl_updateBest_keyed (survivors lines pp) []
    (by intro p hp; cases hp)
  have hnd := foldl_updateBest_nodup (survivors lines pp) [] List.nodup_nil
  rw [values_filter_eq_lookup _ hkeyed hnd m.message_id,
    lookupKey_foldl_updateBest]
  have hmg : m ∈ (survivors lines pp).filter (fun t => t.message_id == m.message_id) :=
    List.mem_filter.mpr ⟨hm, by simp⟩
  cases hgc : (survivors lines pp).filter (fun t => t.message_id == m.message_id) with
  | nil =>
    rw [hgc] at hmg
    cases hmg
  | cons h0 tl =>
    rw [List.foldl_cons, show pickStep (lookupKey ([] : List (String × Turn)) m.message_id) h0
      = some h0 from rfl, foldl_pickStep_some]
    have hall : ∀ u ∈ h0 :: tl, u ≠ m → u.output_tokens < m.output_tokens := by
      intro u hu hne
      rw [← hgc] at hu
      have hu2 := List.mem_filter.mp hu
      exact hmax u hu2.1 (by simpa using hu2.2) hne
    have hinv : h0 = m ∨ (m ∈ tl ∧ h0.output_tokens < m.output_tokens) := by
      rw [hgc, List.mem_cons] at hmg
      rcases hmg with rfl | hmem
      · exact Or.inl rfl
      · by_cases he : h0 = m
        · exact Or.inl he
        · exact Or.inr ⟨hmem, hall h0 (List.mem_cons_self _ _) he⟩
    rw [foldl_pick_unique_max tl m h0 hinv
      (fun u hu => hall u (List.mem_cons_of_mem _ hu))]
    rfl

/-- C1 witness: the spec scenario of two records with outputs 5 and 40
sharing message id msg-1 yields exactly the Turn of the 40 record. -/
theorem iter_turns_dedup_witness :
    dedupWinner ∈ survivors dedupLines "/home/user/proj" ∧
    (iter_turns (some dedupLines) "/home/user/proj").filter
      (fun v => v.message_id == dedupWinner.message_id) = [dedupWinner] :=
  ⟨by decide,
   iter_turns_dedup dedupLines "/home/user/proj" dedupWinner (by decide) (by decide)⟩

/-- C2: when a row is stored under the incoming message id, the bulk
upsert rewrites it to the field-wise MAX of existing and incoming on
output, cache-creation, cache-read and cost, leaving session id,
timestamp, model and input tokens at their stored values, so no stored
field ever decreases. -/
theorem upsert_bulk_merge_fields (st : DBState) (t : Turn) (r : TurnRow)
    (h : lookupKey st.turns t.message_id = some r) :
    lookupKey (upsert_turns_bulk st [t]).turns t.message_id =
      some { r with
        output_tokens := max r.output_tokens t.output_tokens
        cache_creation_tokens := max r.cache_creation_tokens t.cache_creation_tokens
        cache_read_tokens := max r.cache_read_tokens t.cache_read_tokens
        cost_usd := max r.cost_usd (costOf t) } ∧
    r.output_tokens ≤ max r.output_tokens t.output_tokens ∧
    r.cache_creation_tokens ≤ max r.cache_creation_tokens t.cache_creation_tokens ∧
    r.cache_read_tokens ≤ max r.cache_read_tokens t.cache_read_tokens ∧
    r.cost_usd ≤ max r.cost_usd (costOf t) := by
  refine ⟨?_, le_max_left _ _, le_max_left _ _, le_max_left _ _, le_max_left _ _⟩
  show lookupKey (upsert_turn st t).turns t.message_id = _
  simp only [upsert_turn]
  rw [lookupKey_upsertKey_self, h]

/-- C2 witness: the spec scenario of a stored output of 10 hit by a
stale redelivery with output 3 keeps the stored 10. -/
theorem upsert_bulk_merge_fields_witness :
    lookupKey mergeDB.turns staleTurn.message_id = some storedRow ∧
    lookupKey (upsert_turns_bulk mergeDB [staleTurn]).turns staleTurn.message_id =
      some { storedRow with
        output_tokens := max storedRow.output_tokens staleTurn.output_tokens
        cache_creation_tokens :=
          max storedRow.cache_creation_tokens staleTurn.cache_creation_tokens
        cache_read_tokens := max storedRow.cache_read_tokens staleTurn.cache_read_tokens
        cost_usd := max storedRow.cost_usd (costOf staleTurn) } ∧
    max storedRow.output_tokens staleTurn.output_tokens = 10 :=
  ⟨by decide,
   (upsert_bulk_merge_fields mergeDB staleTurn storedRow (by decide)).1,
   by decide⟩

/-- C3: running one bulk upsert twice from any store state ends in the
state one run produces, over both tables. -/
theorem upsert_turns_bulk_idempotent (st : DBState) (L : List Turn) :
    upsert_turns_bulk (upsert_turns_bulk st L) L = upsert_turns_bulk st L :=
  bulk_noop L (bulk_absorbs_all st L)

/-- C4 counterexample: upserting the later-stamped Turn of sess-9 first
and the earlier-stamped one second leaves `first_seen` at the later
timestamp, not at the minimum of the timestamps of the upserted Turns,
refuting the claim that the bounds are order-independent min/max. -/
theorem session_first_seen_not_min_cex :
    (lookupKey (upsert_turns_bulk (upsert_turns_bulk emptyDB [sessTurnA]) [sessTurnB]).sessions
        "sess-9").map (fun r => r.first_seen) = some "2025-03-02T08:00:00.000Z" ∧
    strMin sessTurnA.timestamp sessTurnB.timestamp = "2025-03-01T07:00:00.000Z" ∧
    ("2025-03-02T08:00:00.000Z" : String) ≠ "2025-03-01T07:00:00.000Z" := by
  decide

/-- C4 amended: after any sequence of bulk upserts from the fresh store,
a session row exists exactly when some upserted Turn carries that
session id; its `last_seen` is the TEXT MAX over all those Turn
timestamps, an upper bound attained by one of them, while `first_seen`
is the timestamp of the first such Turn upserted, and
`first_seen ≤ last_seen` always holds. -/
theorem session_bounds (Ls : List (List Turn)) (sid : String) (t : Turn)
    (rest : List Turn)
    (hg : (Ls.flatten).filter (fun u => u.session_id == sid) = t :: rest) :
    lookupKey (Ls.foldl upsert_turns_bulk emptyDB).sessions sid =
      some { project_path := t.project_path
             first_seen := t.timestamp
             last_seen := (rest.map (fun u => u.timestamp)).foldl strMax t.timestamp } ∧
    strLe t.timestamp ((rest.map (fun u => u.timestamp)).foldl strMax t.timestamp) = true ∧
    (∀ u ∈ t :: rest,
      strLe u.timestamp
        ((rest.map (fun u => u.timestamp)).foldl strMax t.timestamp) = true) ∧
    ((rest.map (fun u => u.timestamp)).foldl strMax t.timestamp)
      ∈ (t :: rest).map (fun u => u.timestamp) := by
  rw [foldl_bulk_eq_join, lookup_sessions_bulk, hg]
  refine ⟨rfl, strLe_foldl_strMax_init _ _, ?_, ?_⟩
  · intro u hu
    rw [List.mem_cons] at hu
    rcases hu with rfl | hu
    · exact strLe_foldl_strMax_init _ _
    · exact strLe_foldl_strMax_mem (List.mem_map_of_mem _ hu) _
  · rw [List.map_cons]
    exact foldl_strMax_mem _ _

/-- C4 witness: two bulk upserts of one Turn each for sess-9 produce the
predicted session row, with the bound holding. -/
theorem session_bounds_witness :
    ([[sessTurnA], [sessTurnB]].flatten).filter (fun u => u.session_id == "sess-9")
      = sessTurnA :: [sessTurnB] ∧
    lookupKey ([[sessTurnA], [sessTurnB]].foldl upsert_turns_bulk emptyDB).sessions "sess-9" =
      some { project_path := sessTurnA.project_path
             first_seen := sessTurnA.timestamp
             last_seen := ([sessTurnB].map (fun u => u.timestamp)).foldl strMax
               sessTurnA.timestamp } ∧
    strLe sessTurnA.timestamp
      (([sessTurnB].map (fun u => u.timestamp)).foldl strMax sessTurnA.timestamp) = true :=
  ⟨by decide,
   (session_bounds [[sessTurnA], [sessTurnB]] "sess-9" sessTurnA [sessTurnB] (by decide)).1,
   (session_bounds [[sessTurnA], [sessTurnB]] "sess-9" sessTurnA [sessTurnB] (by decide)).2.1⟩

/-- C5: at 12:00 UTC the five-hour cutoff string SQLite computes is
`2025-01-07 07:00:00`, and the stored ISO timestamp of a Turn six hours
old, `2025-01-07T06:00:00.000Z`, still passes the `timestamp >=` TEXT
comparison because `T` sorts above the space, so the rolling-window
query counts the six-hour-old Turn that the spec says a five-hour window
excludes. -/
theorem rolling_window_includes_six_hour_old_turn :
    nowTime = { sixHourOldTime with hour := sixHourOldTime.hour + 6 } ∧
    windowTurn.timestamp = "2025-01-07T06:00:00.000Z" ∧
    sqliteDatetimeString (minusHours nowTime 5) = "2025-01-07 07:00:00" ∧
    (query_rolling_window windowDB (sqliteDatetimeString (minusHours nowTime 5))).turns = 1 ∧
    (query_rolling_window windowDB (sqliteDatetimeString (minusHours nowTime 5))).output_tokens
      = windowTurn.output_tokens ∧
    (query_rolling_window windowDB (sqliteDatetimeString (minusHours nowTime 5))).oldest_turn
      = some windowTurn.timestamp := by
  decide

/-- C6: the pricing lookup is total and deterministic by construction,
returns the table rates of any exact-match entry, otherwise the rates of
the first table entry related to the model by the two-way prefix test,
otherwise the default tier. -/
theorem get_pricing_spec (m : String) :
    (∀ p, (m, p) ∈ PRICING → get_pricing m = p) ∧
    (m ∉ keysOf PRICING →
      ∀ k p, PRICING.find? (fun kp => prefixMatch m kp.1) = some (k, p) →
        get_pricing m = p) ∧
    (m ∉ keysOf PRICING →
      PRICING.find? (fun kp => prefixMatch m kp.1) = none →
        get_pricing m = DEFAULT_PRICING) := by
  refine ⟨?_, ?_, ?_⟩
  · intro p hp
    have hnd : (keysOf PRICING).Nodup := by decide
    unfold get_pricing
    rw [lookupKey_eq_of_mem hnd hp]
  · intro hmem k p hf
    unfold get_pricing
    rw [(lookupKey_eq_none_iff PRICING m).mpr hmem, hf]
  · intro hmem hf
    unfold get_pricing
    rw [(lookupKey_eq_none_iff PRICING m).mpr hmem, hf]

/-- C6 witness: an exact match, a dated suffix resolved by prefix, and
an unrelated model id falling to the default tier. -/
theorem get_pricing_spec_witness :
    get_pricing "claude-opus-4-5" =
      { input := 15.00, output := 75.00, cache_write := 18.75, cache_read := 1.50 } ∧
    get_pricing "claude-sonnet-4-6-20250929" =
      { input := 3.00, output := 15.00, cache_write := 3.75, cache_read := 0.30 } ∧
    get_pricing "mistral-large" = DEFAULT_PRICING :=
  ⟨(get_pricing_spec "claude-opus-4-5").1 _
      (List.mem_cons_of_mem _ (List.mem_cons_of_mem _
        (List.mem_cons_of_mem _ (List.mem_cons_self _ _)))),
   (get_pricing_spec "claude-sonnet-4-6-20250929").2.1 (by decide) "claude-sonnet-4-6" _ rfl,
   (get_pricing_spec "mistral-large").2.2 (by decide) rfl⟩

/-- C7: the computed cost is the sum over the four token kinds of count
times the per-million rate over one million, and on claude-sonnet-4-5
one million input tokens alone cost exactly three dollars. -/
theorem calculate_cost_spec :
    (∀ (model : String) (i o cw cr : Nat),
      calculate_cost model i o cw cr =
        i * (get_pricing model).input / 1000000
          + o * (get_pricing model).output / 1000000
          + cw * (get_pricing model).cache_write / 1000000
          + cr * (get_pricing model).cache_read / 1000000) ∧
    calculate_cost "claude-sonnet-4-5" 1000000 0 0 0 = 3 := by
  refine ⟨fun model i o cw cr => rfl, ?_⟩
  have h : get_pricing "claude-sonnet-4-5" =
      { input := 3.00, output := 15.00, cache_write := 3.75, cache_read := 0.30 } := rfl
  unfold calculate_cost
  rw [h]
  norm_num

/-- C8 counterexample: in sess-1 the most recent Turn (msg-2) ran on
claude-haiku-4-5, yet the listing reports claude-sonnet-4-5, the
lexicographic MAX over the models of the session, refuting the
most-recently-seen reading. -/
theorem query_sessions_model_cex :
    (query_sessions modelDB 200).map (fun r => r.model) = ["claude-sonnet-4-5"] ∧
    (lookupKey modelDB.turns "msg-2").map (fun r => (r.model, r.timestamp)) =
      some ("claude-haiku-4-5", "2025-03-02T10:00:00.000Z") ∧
    (lookupKey modelDB.turns "msg-1").map (fun r => (r.model, r.timestamp)) =
      some ("claude-sonnet-4-5", "2025-03-01T10:00:00.000Z") ∧
    strLe "2025-03-01T10:00:00.000Z" "2025-03-02T10:00:00.000Z" = true ∧
    ("2025-03-01T10:00:00.000Z" : String) ≠ "2025-03-02T10:00:00.000Z" ∧
    ("claude-sonnet-4-5" : String) ≠ "claude-haiku-4-5" := by
  decide

/-- C8 amended: the listing holds at most `limit` rows, sorted by
`last_seen` descending, at most one row per session; each row belongs to
a stored session owning at least one turn row and is exactly that
session aggregate, whose model is the lexicographically greatest (not
the most recently seen) model of the session, an upper bound attained by
one of its turn rows. -/
theorem query_sessions_spec (st : DBState) (limit : Nat)
    (hnd : (keysOf st.sessions).Nodup) :
    (query_sessions st limit).length ≤ limit ∧
    List.Sorted sessOrder (query_sessions st limit) ∧
    ((query_sessions st limit).map (fun r => r.session_id)).Nodup ∧
    ∀ row ∈ query_sessions st limit, ∃ s r rest,
      lookupKey st.sessions row.session_id = some s ∧
      (st.turns.map Prod.snd).filter (fun x => x.session_id == row.session_id) = r :: rest ∧
      row = sessionRowAgg row.session_id s r rest ∧
      (∀ x ∈ r :: rest, strLe x.model row.model = true) ∧
      row.model ∈ (r :: rest).map (fun x => x.model) := by
  have hsort : List.Sorted sessOrder
      (List.insertionSort sessOrder (sessionRowsUnsorted st)) :=
    @List.sorted_insertionSort _ sessOrder _
      ⟨fun a b => strLe_total b.last_seen a.last_seen⟩
      ⟨fun _ _ _ h1 h2 => strLe_trans h2 h1⟩
      (sessionRowsUnsorted st)
  refine ⟨?_, ?_, ?_, ?_⟩
  · unfold query_sessions
    rw [List.length_take]
    exact min_le_left _ _
  · unfold query_sessions
    exact List.Pairwise.sublist (List.take_sublist _ _) hsort
  · have h1 : ((sessionRowsUnsorted st).map (fun r => r.session_id)).Nodup :=
      List.Nodup.sublist (sessionRows_sids_sublist st.turns st.sessions) hnd
    have h2 : ((List.insertionSort sessOrder (sessionRowsUnsorted st)).map
        (fun r => r.session_id)).Nodup :=
      (((List.perm_insertionSort sessOrder (sessionRowsUnsorted st))).map
        (fun r => r.session_id)).nodup_iff.mpr h1
    refine List.Nodup.sublist ?_ h2
    unfold query_sessions
    rw [List.map_take]
    exact List.take_sublist _ _
  · intro row hrow
    have hmem : row ∈ sessionRowsUnsorted st := by
      have h4 : row ∈ List.insertionSort sessOrder (sessionRowsUnsorted st) :=
        (List.take_sublist _ _).subset hrow
      exact (List.perm_insertionSort sessOrder _).subset h4
    obtain ⟨kv, hkv, hf⟩ := List.mem_filterMap.mp hmem
    revert hf
    cases hflt : (st.turns.map Prod.snd).filter (fun x => x.session_id == kv.1) with
    | nil => intro hf; cases hf
    | cons r rest =>
      intro hf
      cases hf
      refine ⟨kv.2, r, rest, ?_, hflt, rfl, ?_, ?_⟩
      · exact lookupKey_eq_of_mem hnd hkv
      · intro x hx
        rw [List.mem_cons] at hx
        rcases hx with rfl | hx
        · exact strLe_foldl_strMax_init _ _
        · exact strLe_foldl_strMax_mem (List.mem_map_of_mem _ hx) _
      · rw [List.map_cons]
        exact foldl_strMax_mem _ _

/-- C8 witness: the amended statement instantiated on the two-turn
store. -/
theorem query_sessions_spec_witness :
    (keysOf modelDB.sessions).Nodup ∧
    ((query_sessions modelDB 200).length ≤ 200 ∧
      List.Sorted sessOrder (query_sessions modelDB 200) ∧
      ((query_sessions modelDB 200).map (fun r => r.session_id)).Nodup ∧
      ∀ row ∈ query_sessions modelDB 200, ∃ s r rest,
        lookupKey modelDB.sessions row.session_id = some s ∧
        (modelDB.turns.map Prod.snd).filter (fun x => x.session_id == row.session_id)
          = r :: rest ∧
        row = sessionRowAgg row.session_id s r rest ∧
        (∀ x ∈ r :: rest, strLe x.model row.model = true) ∧
        row.model ∈ (r :: rest).map (fun x => x.model)) :=
  ⟨by decide, query_sessions_spec modelDB 200 (by decide)⟩

/-- C9: a plan outside the closed pro, max5, max20 enumeration makes
`set_plan` raise with the store left as it was, and any plan inside the
enumeration is accepted and written. -/
theorem set_plan_spec (cfg : ConfigDoc) (plan : String) :
    (plan ∉ PLANS →
      set_plan cfg plan = Except.error ("Unknown plan: " ++ plan) ∧
      persistedAfterSetPlan cfg plan = cfg) ∧
    (plan ∈ PLANS → set_plan cfg plan = Except.ok (setKey cfg "plan" plan)) := by
  constructor
  · intro hnot
    have hl : ¬ (lookupKey PLAN_LIMITS plan).isSome = true :=
      fun hs => hnot ((lookupKey_isSome_iff PLAN_LIMITS plan).mp hs)
    constructor
    · unfold set_plan
      rw [if_neg hl]
    · unfold persistedAfterSetPlan set_plan
      rw [if_neg hl]
  · intro hmem
    have hl := (lookupKey_isSome_iff PLAN_LIMITS plan).mpr hmem
    unfold set_plan
    rw [if_pos hl]

/-- C9 witness: the unknown tier enterprise is rejected with the
document untouched; the known tier max5 is accepted and persisted. -/
theorem set_plan_spec_witness :
    ("enterprise" ∉ PLANS) ∧
    set_plan [] "enterprise" = Except.error ("Unknown plan: " ++ "enterprise") ∧
    persistedAfterSetPlan [] "enterprise" = [] ∧
    ("max5" ∈ PLANS) ∧
    set_plan [] "max5" = Except.ok (setKey [] "plan" "max5") := by
  have h1 := (set_plan_spec [] "enterprise").1 (by decide)
  have h2 := (set_plan_spec [] "max5").2 (by decide)
  exact ⟨by decide, h1.1, h1.2, by decide, h2⟩

/-- C10: when the log file has no user-originated record, or is
unreadable, the single-file hook scan resolves the working directory to
the empty string and every Turn it yields carries the empty project
path — the directory-name fallback of the full scan is not applied. -/
theorem scan_session_turns_empty_project_path (file : JsonlFile)
    (h : ¬ hasUserRecord file) :
    ∀ t ∈ scan_session_turns file, t.project_path = "" := by
  have hcwd : get_cwd_from_jsonl file = "" := by
    cases file with
    | none => rfl
    | some lines =>
      have h2 : ¬ lines.any lineIsUser = true := h
      have hb : lines.any lineIsUser = false := by
        cases hany : lines.any lineIsUser with
        | false => rfl
        | true => exact absurd hany h2
      exact cwdOfLines_no_user hb
  intro t ht
  unfold scan_session_turns at ht
  rw [hcwd] at ht
  exact iter_turns_project_path t ht

/-- C10 witness: a file with one malformed line and one assistant
record, and no user record, yields its one Turn with the empty project
path. -/
theorem scan_session_turns_empty_project_path_witness :
    ¬ hasUserRecord hookFile ∧
    (∀ t ∈ scan_session_turns hookFile, t.project_path = "") ∧
    (scan_session_turns hookFile).length = 1 :=
  ⟨by decide,
   scan_session_turns_empty_project_path hookFile (by decide),
   by decide⟩

end TokenTracker
